import Mathlib

set_option maxRecDepth 10000
set_option maxHeartbeats 1000000

/-!
Shallow embedding of the open-dart structured-financials reconciliation
engine (endpoint.py together with openDart/endpoints/financials.py).
Python ints are modelled as Int or Nat, Decimal values as exact rationals
extended with the special values NaN and Infinity, datetimes as
year/month/day triples (the pipeline only builds midnight datetimes), and
dict/list state as association lists that keep insertion order.  The final
float conversion of emitted values is modelled as the identity on the exact
values it converts.
-/

/-- Calendar date, mirroring the fields of a Python datetime that the code
reads. -/
structure PyDate where
  year : Nat
  month : Nat
  day : Nat
deriving DecidableEq

/-- Cumulative days before the first day of the given month in a non-leap
year (months counted 1..12). -/
def daysBeforeMonth : Nat → Nat
  | 1 => 0
  | 2 => 31
  | 3 => 59
  | 4 => 90
  | 5 => 120
  | 6 => 151
  | 7 => 181
  | 8 => 212
  | 9 => 243
  | 10 => 273
  | 11 => 304
  | 12 => 334
  | _ => 365

/-- Gregorian leap-year test. -/
def isLeap (y : Nat) : Bool := (y % 4 == 0 && y % 100 != 0) || y % 400 == 0

/-- Proleptic Gregorian ordinal of a date, day 1 being 0001-01-01.  This is
what Python's date.toordinal computes, and subtraction of two midnight
datetimes yields exactly the difference of these ordinals in days. -/
def toOrdinal (d : PyDate) : Int :=
  365 * ((d.year : Int) - 1) + ((d.year : Int) - 1) / 4 - ((d.year : Int) - 1) / 100
    + ((d.year : Int) - 1) / 400 + (daysBeforeMonth d.month : Int)
    + (if 3 ≤ d.month ∧ isLeap d.year then 1 else 0) + (d.day : Int)

/-- Fiscal quarter index of a date: (month - 1) // 3 + 1. -/
def q_index (d : PyDate) : Nat := (d.month - 1) / 3 + 1

/-- Value space of Python's Decimal: finite values are exact rationals, and
string conversion can also produce NaN or signed Infinity. -/
inductive PyDecimal where
  | num (q : ℚ)
  | nan (signaling : Bool)
  | inf (negative : Bool)
deriving DecidableEq

/-- ASCII whitespace recognised by str.strip. -/
def isPyWhitespace (c : Char) : Bool :=
  c == ' ' || c == '\t' || c == '\n' || c == '\r' || c == '\x0b' || c == '\x0c'

/-- Python str.strip with no argument: drop leading and trailing
whitespace. -/
def pyStrip (l : List Char) : List Char :=
  ((l.dropWhile isPyWhitespace).reverse.dropWhile isPyWhitespace).reverse

/-- Numeric value of a digit string. -/
def natOfDigits (l : List Char) : Nat := l.foldl (fun a c => a * 10 + (c.toNat - 48)) 0

/-- Leading sign of a numeric string: (is-negative, remainder). -/
def parseSign : List Char → Bool × List Char
  | '+' :: t => (false, t)
  | '-' :: t => (true, t)
  | l => (false, l)

/-- Digit part of a decimal numeric string: digits with at most one point
and at least one digit overall.  Returns the combined digit value together
with the count of fractional digits. -/
def parseMantissa (l : List Char) : Option (Nat × Nat) :=
  match l.splitOn '.' with
  | [ip] => if !ip.isEmpty && ip.all Char.isDigit then some (natOfDigits ip, 0) else none
  | [ip, fp] =>
      if (ip.isEmpty && fp.isEmpty) || !(ip.all Char.isDigit) || !(fp.all Char.isDigit) then
        none
      else some (natOfDigits (ip ++ fp), fp.length)
  | _ => none

/-- Split a character list at the first exponent indicator. -/
def splitExp : List Char → List Char × Option (List Char)
  | [] => ([], none)
  | c :: t =>
      if c == 'e' || c == 'E' then ([], some t)
      else
        let r := splitExp t
        (c :: r.1, r.2)

/-- Exponent field of a numeric string: optional sign and nonempty digits. -/
def parseExp (l : List Char) : Option Int :=
  let p := parseSign l
  if !p.2.isEmpty && p.2.all Char.isDigit then
    some (if p.1 then -(natOfDigits p.2 : Int) else (natOfDigits p.2 : Int))
  else none

/-- String conversion of Decimal: strip whitespace, remove underscores, then
match the decimal numeric string grammar of a signed digit string with
optional point and exponent, signed Infinity, or NaN with an optional digit
payload.  Returns none exactly where the Python constructor signals
InvalidOperation. -/
def decimalOfChars (l0 : List Char) : Option PyDecimal :=
  let l := (pyStrip l0).filter (fun c => c != '_')
  let p := parseSign l
  let neg := p.1
  let low := p.2.map Char.toLower
  if low == "inf".data || low == "infinity".data then some (.inf neg)
  else if low.take 3 == "nan".data && (low.drop 3).all Char.isDigit then some (.nan false)
  else if low.take 4 == "snan".data && (low.drop 4).all Char.isDigit then some (.nan true)
  else
    let me := splitExp p.2
    match parseMantissa me.1, me.2 with
    | some vf, none =>
        some (.num ((if neg then -1 else 1) * (vf.1 : ℚ) * (10 : ℚ) ^ (-(vf.2 : Int))))
    | some vf, some etxt =>
        match parseExp etxt with
        | some ev =>
            some (.num ((if neg then -1 else 1) * (vf.1 : ℚ) * (10 : ℚ) ^ (ev - (vf.2 : Int))))
        | none => none
    | none, _ => none

/-- Parenthetical negative rewrite: a string wrapped in parentheses becomes
the same string with a leading minus sign. -/
def parenRewrite (s : List Char) : List Char :=
  if s.head? == some '(' && s.getLast? == some ')' then '-' :: (s.drop 1).dropLast
  else s

/-- Text preprocessing of the amount normaliser: drop thousands separators,
strip whitespace, rewrite the parenthetical negative form. -/
def pyNormAmount (raw : String) : List Char :=
  parenRewrite (pyStrip (raw.data.filter (fun c => c != ',')))

/-- Amount normaliser from endpoint.py: drop thousands separators, strip
whitespace, rewrite a parenthesised amount to a leading minus sign, then
convert as a Decimal; on an invalid numeric string return exact zero. -/
def parse_decimal (raw : String) : PyDecimal :=
  (decimalOfChars (pyNormAmount raw)).getD (.num 0)

/-- Keys of a per-year output dict: a quarter number or the "all" total. -/
inductive QK where
  | q (n : Int)
  | all
deriving DecidableEq

/-- Python sort key used when ordering the output dict: the pair of
(key equals "all") and (the key's digits as an int, else 0).  The decimal
string of an integer is all digits exactly when the integer is
nonnegative. -/
def qkKey : QK → Bool × Int
  | .all => (true, 0)
  | .q n => (false, if 0 ≤ n then n else 0)

/-- Strict lexicographic comparison of python sort keys (False sorts before
True). -/
def keyLt (a b : Bool × Int) : Bool :=
  (!a.1 && b.1) || (a.1 == b.1 && decide (a.2 < b.2))

/-- Insert an element into a key-sorted list after any element of equal or
smaller key; folding this over a list reproduces Python's stable ascending
sort. -/
def sortInsQK (x : QK) : List QK → List QK
  | [] => [x]
  | h :: t => if keyLt (qkKey x) (qkKey h) then x :: h :: t else h :: sortInsQK x t

/-- Stable ascending sort of output keys by the python sort key. -/
def pySortKeysQK (l : List QK) : List QK := l.foldl (fun acc x => sortInsQK x acc) []

/-- String form of an output key. -/
def qkStr : QK → String
  | .q n => toString n
  | .all => "all"

/-- Dict lookup in the entries that built the output map. -/
def lookupQK : List (QK × ℚ) → QK → ℚ
  | [], _ => 0
  | (k, v) :: t, x => if k = x then v else lookupQK t x

/-- Ordered output map from endpoint.py: sort the dict keys by the python
sort key (numeric quarters ascending, "all" last) and emit string-keyed
values; the float conversion of each value is modelled as the identity. -/
def ordered_qmap (entries : List (QK × ℚ)) : List (String × ℚ) :=
  (pySortKeysQK (entries.map Prod.fst)).map (fun k => (qkStr k, lookupQK entries k))

/-- One flow constraint for an account-year: covered quarter set, exact
amount, and the cumulative (year-to-date) flag. -/
structure Eq3 where
  qs : Finset Int
  amt : ℚ
  ytd : Bool
deriving DecidableEq

/-- Association-list model of the solved dict, in insertion order. -/
abbrev Solved := List (Int × ℚ)

/-- Lookup in the solved dict. -/
def slookup : Solved → Int → Option ℚ
  | [], _ => none
  | (k, v) :: t, q => if k = q then some v else slookup t q

/-- Membership test of the solved dict. -/
def solvedHas (s : Solved) (q : Int) : Bool := (slookup s q).isSome

/-- Value stored for a solved quarter (callers only read present keys). -/
def solvedVal (s : Solved) (q : Int) : ℚ := (slookup s q).getD 0

/-- Python max over a set of ints; only ever applied to nonempty sets. -/
def pyMax (s : Finset Int) : Int := s.max.unbot' 0

/-- Quarters of a constraint not yet solved. -/
def unknowns (s : Solved) (c : Eq3) : Finset Int :=
  c.qs.filter (fun q => solvedHas s q = false)

/-- Gate of the solver scan: exactly one unknown quarter remains and, for a
cumulative constraint, that quarter is the maximum of the set. -/
def fires (s : Solved) (c : Eq3) : Bool :=
  (unknowns s c).card == 1 && (!c.ytd || pyMax (unknowns s c) == pyMax c.qs)

/-- The unique unknown quarter of a constraint about to be solved. -/
def theQ (s : Solved) (c : Eq3) : Int := pyMax (unknowns s c)

/-- One constraint visit of the inner scan: when the gate fires, solve the
unknown as the amount minus the sum of the already-solved quarters of the
set, and record that something changed. -/
def stepC (p : Solved × Bool) (c : Eq3) : Solved × Bool :=
  if fires p.1 c then
    (p.1 ++ [(theQ p.1 c,
        c.amt - Finset.sum (c.qs.filter (fun q => solvedHas p.1 q = true))
          (fun q => solvedVal p.1 q))],
      true)
  else p

/-- Constraints in the order one full pass visits them: span lengths 4, 3,
2, 1, keeping input order within a group. -/
def spanOrdered (cs : List Eq3) : List Eq3 :=
  (cs.filter (fun c => c.qs.card == 4)) ++ (cs.filter (fun c => c.qs.card == 3))
    ++ (cs.filter (fun c => c.qs.card == 2)) ++ (cs.filter (fun c => c.qs.card == 1))

/-- One full pass over all constraint groups, threading the changed flag. -/
def passC (cs : List Eq3) (s : Solved) : Solved × Bool :=
  (spanOrdered cs).foldl stepC (s, false)

/-- All quarters mentioned by some constraint. -/
def relevantQ (cs : List Eq3) : Finset Int :=
  cs.foldr (fun c acc => c.qs ∪ acc) ∅

/-- Fixed-point loop: repeat full passes while a pass changed something.
Fuel bounds the pass count; every productive pass solves at least one new
relevant quarter, so the fuel chosen by solveCore always reaches the fixed
point. -/
def solveIter : Nat → List Eq3 → Solved → Solved
  | 0, _, s => s
  | n + 1, cs, s =>
      let p := passC cs s
      if p.2 then solveIter n cs p.1 else p.1

/-- Solved quarters of one account-year at the fixed point. -/
def solveCore (cs : List Eq3) : Solved :=
  solveIter ((relevantQ cs).card + 1) cs []

/-- Key set of the solved dict. -/
def keysOf (s : Solved) : Finset Int := (s.map Prod.fst).toFinset

/-- Closure of quarters the solver can derive from a constraint list: a
quarter is solvable through a constraint of span length 1..4 containing it
when every other quarter of that set is solvable and, for a cumulative
constraint, the quarter is the maximum of the set.  Membership is blind to
list order, which is what makes the solved key set order independent. -/
inductive Solvable (cs : List Eq3) : Int → Prop where
  | mk (c : Eq3) (hc : c ∈ cs)
      (hcard : c.qs.card = 4 ∨ c.qs.card = 3 ∨ c.qs.card = 2 ∨ c.qs.card = 1)
      (q : Int) (hq : q ∈ c.qs)
      (hrest : ∀ q2 ∈ c.qs, q2 ≠ q → Solvable cs q2)
      (hgate : c.ytd = true → q = pyMax c.qs) : Solvable cs q

/-- Annual total entry: an explicit annual year-to-date figure is used
verbatim, otherwise the exact sum of the four quarters when all of them
were solved, otherwise nothing. -/
def allEntryOf (s : Solved) (annual_ytd : Option ℚ) : List (QK × ℚ) :=
  match annual_ytd with
  | some a => [(QK.all, a)]
  | none =>
      if ([1, 2, 3, 4] : List Int).all (fun q => solvedHas s q) then
        [(QK.all, solvedVal s 1 + solvedVal s 2 + solvedVal s 3 + solvedVal s 4)]
      else []

/-- Solver for one account-year from endpoint.py: fixed-point constraint
peeling, then the annual total, then the ordered string-keyed map. -/
def solve_year (cs : List Eq3) (annual_ytd : Option ℚ) : List (String × ℚ) :=
  let s := solveCore cs
  ordered_qmap (s.map (fun kv => (QK.q kv.1, kv.2)) ++ allEntryOf s annual_ytd)

/-- Duration limit table of endpoint.py: pairs of span length in quarters
and the maximal inclusive day count mapped to it. -/
def KIFRS_QUARTER_LIMITS : List (Int × Int) := [(1, 111), (2, 201), (3, 291)]

/-- Python set(range(a, b)) over the ints. -/
def pyRange (a b : Int) : Finset Int := Finset.Icc a (b - 1)

/-- Span classifier from endpoint.py: a span starting January 1 of the end
date's year is cumulative over quarters 1..q(end); otherwise the first
duration limit at least the inclusive day count (falling back to the end
quarter index) gives the span length, never cumulative.  An absent start
date makes the day count one. -/
def quarters_from_span (start : Option PyDate) (e : PyDate) : Finset Int × Bool :=
  let q_end : Int := (q_index e : Int)
  match start with
  | some st =>
      if st.month = 1 ∧ st.day = 1 ∧ st.year = e.year then
        (pyRange 1 (q_end + 1), true)
      else
        let delta_days : Int := toOrdinal e - toOrdinal st + 1
        let k : Int :=
          match KIFRS_QUARTER_LIMITS.find? (fun l => decide (delta_days ≤ l.2)) with
          | some l => l.1
          | none => q_end
        (pyRange (q_end - k + 1) (q_end + 1), false)
  | none =>
      let delta_days : Int := toOrdinal e - toOrdinal e + 1
      let k : Int :=
        match KIFRS_QUARTER_LIMITS.find? (fun l => decide (delta_days ≤ l.2)) with
        | some l => l.1
        | none => q_end
      (pyRange (q_end - k + 1) (q_end + 1), false)

/-- Classification rule exactly as the specification words it: Rule A for a
same-year January 1 start, otherwise the ascending duration thresholds over
the inclusive day count select the span length (an absent start being a
one-day interval), and the covered set is the k quarters ending at the end
date's quarter.  Defined only to be compared against the code. -/
def spec_classify (start : Option PyDate) (e : PyDate) : Finset Int × Bool :=
  let qe : Int := (q_index e : Int)
  match start with
  | some st =>
      if st.month = 1 ∧ st.day = 1 ∧ st.year = e.year then
        (Finset.Icc 1 qe, true)
      else
        let d : Int := toOrdinal e - toOrdinal st + 1
        let k : Int :=
          if d ≤ 111 then 1 else if d ≤ 201 then 2 else if d ≤ 291 then 3 else qe
        (Finset.Icc (qe - k + 1) qe, false)
  | none =>
      let d : Int := 1
      let k : Int :=
        if d ≤ 111 then 1 else if d ≤ 201 then 2 else if d ≤ 291 then 3 else qe
      (Finset.Icc (qe - k + 1) qe, false)

/-- First fiscal year the upstream API supports. -/
def FIRST_YEAR_SUPPORTED : Nat := 2015

/-- Year-quarter grid from endpoint.py: every quarter of every year from the
start year through today's year, capped at today's quarter within the
current year. -/
def iter_year_quarters (start_year : Nat) (today : PyDate) : List (Nat × Nat) :=
  let curr_q := q_index { year := today.year, month := today.month, day := 1 }
  (((List.range (today.year + 1 - start_year)).map (fun i => start_year + i)).map
    (fun y =>
      let max_q := if y = today.year then curr_q else 4
      (List.range max_q).map (fun i => (y, i + 1)))).flatten

/-- Last calendar day of a fiscal quarter; this formalises the notion of a
quarter being completed as of a date, which the specification appeals to. -/
def quarter_end (y qtr : Nat) : PyDate :=
  if qtr = 1 then { year := y, month := 3, day := 31 }
  else if qtr = 2 then { year := y, month := 6, day := 30 }
  else if qtr = 3 then { year := y, month := 9, day := 30 }
  else { year := y, month := 12, day := 31 }

/-- Time-series entry from financials.py.  The float amount is modelled by
the numeric text that produced it. -/
structure FinancialValue where
  report_date : PyDate
  amount : String
  start_date : Option PyDate := none
  end_date : Option PyDate := none
deriving DecidableEq

/-- Datetime comparison, lexicographic on (year, month, day) as it is for
the midnight datetimes this pipeline builds. -/
def dateLt (a b : PyDate) : Prop :=
  a.year < b.year ∨ (a.year = b.year ∧
    (a.month < b.month ∨ (a.month = b.month ∧ a.day < b.day)))

instance (a b : PyDate) : Decidable (dateLt a b) := by
  unfold dateLt
  exact inferInstance

/-- Non-strict datetime comparison. -/
def dateLe (a b : PyDate) : Prop := ¬ dateLt b a

/-- Insert a value into a series sorted by report date, after any entries of
equal or earlier date. -/
def sortInsFV (x : FinancialValue) : List FinancialValue → List FinancialValue
  | [] => [x]
  | h :: t =>
      if dateLt x.report_date h.report_date then x :: h :: t else h :: sortInsFV x t

/-- Stable ascending sort by report date, modelling list.sort with the
report-date key. -/
def pySortFV (l : List FinancialValue) : List FinancialValue :=
  l.foldl (fun acc x => sortInsFV x acc) []

/-- Dict lookup in an association list. -/
def lookupA {K V : Type} [DecidableEq K] : List (K × V) → K → Option V
  | [], _ => none
  | (k, v) :: t, x => if k = x then some v else lookupA t x

/-- Dict write in an association list: replace in place or append. -/
def setAssoc {K V : Type} [DecidableEq K] : List (K × V) → K → V → List (K × V)
  | [], k, v => [(k, v)]
  | (k0, v0) :: t, k, v => if k0 = k then (k, v) :: t else (k0, v0) :: setAssoc t k v

/-- Statements store of a company report: statement code to account name to
the account's time series. -/
structure CompanyFinancialReport where
  statements : List (String × List (String × List FinancialValue)) := []
deriving DecidableEq

/-- add-financial-value from financials.py: get or create the statement and
account buckets, append the new value, then stable-sort the series by
report date. -/
def add_financial_value (r : CompanyFinancialReport) (statement_type account_name : String)
    (fv : FinancialValue) : CompanyFinancialReport :=
  let accounts := (lookupA r.statements statement_type).getD []
  let ts := (lookupA accounts account_name).getD []
  let ts2 := pySortFV (ts ++ [fv])
  { statements := setAssoc r.statements statement_type (setAssoc accounts account_name ts2) }

/-- Time series of one account of one statement. -/
def seriesOf (r : CompanyFinancialReport) (st acct : String) : List FinancialValue :=
  (lookupA ((lookupA r.statements st).getD []) acct).getD []

/-- Apply a sequence of add calls, each one (statement, account, value). -/
def applyAdds (r : CompanyFinancialReport)
    (calls : List (String × String × FinancialValue)) : CompanyFinancialReport :=
  calls.foldl (fun acc c => add_financial_value acc c.1 c.2.1 c.2.2) r

/-- Month lengths used by datetime validation. -/
def daysInMonth (y m : Nat) : Nat :=
  if m == 2 then (if isLeap y then 29 else 28)
  else if m == 4 || m == 6 || m == 9 || m == 11 then 30
  else 31

/-- The strptime format of group-reports-by-type: exactly four year digits,
one or two month digits, one or two day digits, separated by points, with
datetime construction validating the ranges. -/
def strptimeYmd (s : String) : Option PyDate :=
  match s.data.splitOn '.' with
  | [ys, ms, ds] =>
      if ys.length == 4 && ys.all Char.isDigit
          && (ms.length == 1 || ms.length == 2) && ms.all Char.isDigit
          && (ds.length == 1 || ds.length == 2) && ds.all Char.isDigit then
        let y := natOfDigits ys
        let m := natOfDigits ms
        let d := natOfDigits ds
        if 1 ≤ y ∧ 1 ≤ m ∧ m ≤ 12 ∧ 1 ≤ d ∧ d ≤ daysInMonth y m then
          some { year := y, month := m, day := d }
        else none
      else none
  | _ => none

/-- Underscore placement rule of python numeric strings: every underscore
must sit between two digits. -/
def underscoresOkAux : Option Char → List Char → Bool
  | _, [] => true
  | prev, c :: t =>
      if c == '_' then
        (match prev with
          | some pc => pc.isDigit
          | none => false)
          && (match t with
              | d :: _ => d.isDigit
              | [] => false)
          && underscoresOkAux (some c) t
      else underscoresOkAux (some c) t

/-- Check the underscore rule over a whole string. -/
def underscoresOk (l : List Char) : Bool := underscoresOkAux none l

/-- Recogniser for float(str): stripped input, optional sign, then inf,
infinity or nan, or a digit string with optional point and exponent, with
underscores allowed only between digits. -/
def pyFloatOk (s : String) : Bool :=
  let l := pyStrip s.data
  let p := parseSign l
  let low := p.2.map Char.toLower
  if low == "inf".data || low == "infinity".data || low == "nan".data then true
  else
    underscoresOk p.2 &&
      (let b := p.2.filter (fun c => c != '_')
       let me := splitExp b
       (match parseMantissa me.1 with
         | some _ => true
         | none => false)
         && (match me.2 with
             | none => true
             | some etxt =>
                 match parseExp etxt with
                 | some _ => true
                 | none => false))

/-- Fields of one raw filing entry that group-reports-by-type reads. -/
structure RawItem where
  fs_div : String
  sj_div : String
  account_nm : String
  thstrm_amount : String
  thstrm_dt : String
deriving DecidableEq

/-- Text before the first space of a string, i.e. index zero of a split on
a single-space separator. -/
def takeUntilSpace (l : List Char) : List Char := l.takeWhile (fun c => c != ' ')

/-- Per-item body of group-reports-by-type from financials.py: parse the
date or date range according to the statement kind, convert the de-comma'd
amount text with float, and produce the value to add; a ValueError from
date or amount parsing skips the item. -/
def parseItemValue (item : RawItem) : Option (String × String × FinancialValue) :=
  let raw_amount := String.mk (item.thstrm_amount.data.filter (fun c => c != ','))
  let raw_date := pyStrip item.thstrm_dt.data
  let dates : Option (PyDate × Option PyDate × Option PyDate) :=
    if item.sj_div == "IS" && raw_date.contains '~' then
      match raw_date.splitOn '~' with
      | [a, b] =>
          match strptimeYmd (String.mk (pyStrip a)), strptimeYmd (String.mk (pyStrip b)) with
          | some sd, some ed => some (ed, some sd, some ed)
          | _, _ => none
      | _ => none
    else
      match strptimeYmd (String.mk (takeUntilSpace raw_date)) with
      | some rd => some (rd, none, none)
      | none => none
  match dates with
  | none => none
  | some de =>
      if pyFloatOk raw_amount then
        some (item.sj_div, item.account_nm,
          { report_date := de.1, amount := raw_amount,
            start_date := de.2.1, end_date := de.2.2 })
      else none

/-- Accumulation stores of the aggregation step, with the nested default
dicts flattened to association maps: balance snapshots keyed by
consolidation, account, year and quarter; flow constraints per
consolidation, account and year; the furthest-reaching cumulative figure
per consolidation, account and year. -/
structure AggStores where
  bs : List ((String × String × Nat × Nat) × PyDecimal) := []
  eqs : List ((String × String × Nat) × List (Finset Int × PyDecimal × Bool)) := []
  ytd : List ((String × String × Nat) × (Int × PyDecimal)) := []
deriving DecidableEq

/-- Python Decimal equality against the int zero: false for the special
values. -/
def pyEqZero : PyDecimal → Bool
  | .num qv => qv == 0
  | _ => false

/-- Body of the entry loop of aggregate-one-report in endpoint.py for one
(consolidation, statement, account) series: drop zero amounts, record
balance snapshots, append flow constraints and track the furthest-reaching
cumulative figure. -/
def entryStep (cons stmt acct : String) (st : AggStores) (e : FinancialValue) : AggStores :=
  let amt := parse_decimal e.amount
  if pyEqZero amt then st
  else if stmt == "BS" then
    let d := e.report_date
    { st with bs := setAssoc st.bs (cons, acct, d.year, q_index d) amt }
  else
    let endd := e.end_date.getD e.report_date
    let r := quarters_from_span e.start_date endd
    let st2 := { st with
      eqs := setAssoc st.eqs (cons, acct, endd.year)
        (((lookupA st.eqs (cons, acct, endd.year)).getD []) ++ [(r.1, amt, r.2)]) }
    if r.2 then
      let qmax := pyMax r.1
      match lookupA st2.ytd (cons, acct, endd.year) with
      | none => { st2 with ytd := setAssoc st2.ytd (cons, acct, endd.year) (qmax, amt) }
      | some prev =>
          if prev.1 < qmax then
            { st2 with ytd := setAssoc st2.ytd (cons, acct, endd.year) (qmax, amt) }
          else st2
    else st2

/-- Entry loop over one series. -/
def aggregate_entries (cons stmt acct : String) (st : AggStores)
    (es : List FinancialValue) : AggStores :=
  es.foldl (entryStep cons stmt acct) st

/-!
Theorems.  Each claim of the specification review is settled below; helper
lemmas shared between proofs come first inside each group.
-/

/-- C1: solving the constraint set {({1,2,3}, 90, cumulative),
({4}, 30, non-cumulative)} with no explicit annual total yields quarter
4 = 30 with quarters 1, 2, 3 unsolved, and the extended set that also
contains ({1,2}, 50, cumulative) and ({1}, 20, non-cumulative) yields
quarter 1 = 20, quarter 2 = 30, quarter 3 = 40 and quarter 4 = 30. -/
theorem C1_cumulative_priming :
    solve_year [⟨{1, 2, 3}, 90, true⟩, ⟨{4}, 30, false⟩] none = [("4", 30)] ∧
      solve_year [⟨{1, 2, 3}, 90, true⟩, ⟨{4}, 30, false⟩, ⟨{1, 2}, 50, true⟩,
          ⟨{1}, 20, false⟩] none =
        [("1", 20), ("2", 30), ("3", 40), ("4", 30), ("all", 120)] := by
  constructor
  · with_unfolding_all decide
  · with_unfolding_all decide

/-- C2 counterexample: two conflicting single-quarter constraints for the
same quarter give a SolvedYear whose value depends on input order, so
permuting the constraint list does not always yield an identical
SolvedYear. -/
theorem C2_order_dependence_cex :
    List.Perm [Eq3.mk {1} 10 false, Eq3.mk {1} 20 false]
        [Eq3.mk {1} 20 false, Eq3.mk {1} 10 false] ∧
      solve_year [Eq3.mk {1} 10 false, Eq3.mk {1} 20 false] none ≠
        solve_year [Eq3.mk {1} 20 false, Eq3.mk {1} 10 false] none := by
  constructor
  · with_unfolding_all decide
  · with_unfolding_all decide

/-- C3 counterexample: when an explicit annual year-to-date figure is
supplied it is emitted verbatim as "all", so an account-year can have all
four quarters solved while "all" differs from their sum by far more than
any floating-point tolerance. -/
theorem C3_all_vs_sum_cex :
    solve_year [⟨{1}, 10, false⟩, ⟨{2}, 10, false⟩, ⟨{3}, 10, false⟩, ⟨{4}, 10, false⟩,
        ⟨{1, 2, 3, 4}, 100, true⟩] (some 100) =
      [("1", 10), ("2", 10), ("3", 10), ("4", 10), ("all", 100)] ∧
      ((10 : ℚ) + 10 + 10 + 10) ≠ 100 := by
  constructor
  · with_unfolding_all decide
  · with_unfolding_all decide

/-- C5 counterexample: a 215-day span ending in the first quarter maps to
span length 3, so the classifier returns {-1, 0, 1}, which is not a subset
of {1, 2, 3, 4}. -/
theorem C5_quarterset_cex :
    quarters_from_span (some ⟨2023, 7, 1⟩) ⟨2024, 1, 31⟩ = ({-1, 0, 1}, false) ∧
      ¬ (({-1, 0, 1} : Finset Int) ⊆ {1, 2, 3, 4}) := by
  constructor
  · with_unfolding_all decide
  · with_unfolding_all decide

/-- C7: a flow entry whose raw amount is parenthetical with a thousands
separator is dropped by group-reports-by-type, because after comma removal
float-conversion of the parenthesised text fails and the item is skipped;
the same item with a plain amount survives, and the downstream amount
normaliser would have read the parenthetical text as -1234. -/
theorem C7_paren_amount_dropped :
    parseItemValue ⟨"CFS", "IS", "Revenue", "(1,234)", "2023.01.01 ~ 2023.12.31"⟩ = none ∧
      parseItemValue ⟨"CFS", "IS", "Revenue", "1,234", "2023.01.01 ~ 2023.12.31"⟩ =
        some ("IS", "Revenue",
          { report_date := ⟨2023, 12, 31⟩, amount := "1234",
            start_date := some ⟨2023, 1, 1⟩, end_date := some ⟨2023, 12, 31⟩ }) ∧
      parse_decimal "(1,234)" = .num (-1234) := by
  refine ⟨?_, ?_, ?_⟩
  · with_unfolding_all decide
  · with_unfolding_all decide
  · with_unfolding_all decide

/-- C9 counterexample: on 2024-05-15 the grid includes (2024, 2) although
the second fiscal quarter of 2024 only completes on 2024-06-30, so the grid
does not stop at the most recently completed quarter. -/
theorem C9_incomplete_quarter_cex :
    (2024, 2) ∈ iter_year_quarters FIRST_YEAR_SUPPORTED ⟨2024, 5, 15⟩ ∧
      toOrdinal ⟨2024, 5, 15⟩ < toOrdinal (quarter_end 2024 2) := by
  constructor
  · with_unfolding_all decide
  · with_unfolding_all decide

/-- C8: a filing entry whose amount parses to exactly zero (malformed text
included) contributes nothing to any store, and aggregation of the
surrounding batch proceeds exactly as if the entry were absent. -/
theorem C8_zero_entry_noop (cons stmt acct : String) (st : AggStores)
    (pre post : List FinancialValue) (e : FinancialValue)
    (hz : pyEqZero (parse_decimal e.amount) = true) :
    aggregate_entries cons stmt acct st (pre ++ e :: post) =
      aggregate_entries cons stmt acct st (pre ++ post) := by
  unfold aggregate_entries
  rw [List.foldl_append, List.foldl_append, List.foldl_cons]
  congr 1
  unfold entryStep
  simp [hz]

/-- C8 witness: a malformed amount in the middle of a batch is a no-op. -/
theorem C8_zero_entry_noop_witness :
    pyEqZero (parse_decimal "abc") = true ∧
      aggregate_entries "CFS" "IS" "Revenue" {}
          ([⟨⟨2023, 3, 31⟩, "5", none, none⟩] ++
            ⟨⟨2023, 6, 30⟩, "abc", none, none⟩ ::
              [⟨⟨2023, 9, 30⟩, "7", none, none⟩]) =
        aggregate_entries "CFS" "IS" "Revenue" {}
          ([⟨⟨2023, 3, 31⟩, "5", none, none⟩] ++ [⟨⟨2023, 9, 30⟩, "7", none, none⟩]) :=
  ⟨by with_unfolding_all decide,
    C8_zero_entry_noop "CFS" "IS" "Revenue" {} _ _ _ (by with_unfolding_all decide)⟩

/-- C6: the amount normaliser strips thousands separators (parsing is
invariant under removing commas), reads the parenthetical negative form so
that "(1,234)" becomes exactly -1234, and returns exact zero on any input
whose normalised text is not a valid decimal numeric string, instead of
raising. -/
theorem C6_parse_decimal_spec :
    (∀ s : String,
        parse_decimal s = parse_decimal (String.mk (s.data.filter (fun c => c != ',')))) ∧
      parse_decimal "(1,234)" = PyDecimal.num (-1234) ∧
      (∀ s : String, decimalOfChars (pyNormAmount s) = none →
        parse_decimal s = PyDecimal.num 0) := by
  refine ⟨?_, by with_unfolding_all decide, ?_⟩
  · intro s
    simp [parse_decimal, pyNormAmount, List.filter_filter]
  · intro s h
    simp [parse_decimal, h]

/-- C6 witness: unparseable text yields exact zero and comma removal does
not change a parse. -/
theorem C6_parse_decimal_spec_witness :
    parse_decimal "12abc" = PyDecimal.num 0 ∧
      parse_decimal "1,234" = parse_decimal (String.mk ("1,234".data.filter (fun c => c != ','))) :=
  ⟨C6_parse_decimal_spec.2.2 "12abc" (by with_unfolding_all decide),
    C6_parse_decimal_spec.1 "1,234"⟩

/-- Evaluation of the duration-limit scan: the first limit whose day bound
is at least the day count, with the fallback span length. -/
theorem findK_eval (d qe : Int) :
    (match List.find? (fun l => decide (d ≤ l.2)) KIFRS_QUARTER_LIMITS with
      | some l => l.1
      | none => qe) =
    if d ≤ 111 then 1 else if d ≤ 201 then 2 else if d ≤ 291 then 3 else qe := by
  by_cases h1 : d ≤ 111
  · simp [KIFRS_QUARTER_LIMITS, List.find?, h1]
  · by_cases h2 : d ≤ 201
    · simp [KIFRS_QUARTER_LIMITS, List.find?, h1, h2]
    · by_cases h3 : d ≤ 291
      · simp [KIFRS_QUARTER_LIMITS, List.find?, h1, h2, h3]
      · simp [KIFRS_QUARTER_LIMITS, List.find?, h1, h2, h3]

/-- C4: on every input the classifier of the code agrees with the
specification's rule: a same-year January 1 start yields quarters 1
through q(end) flagged cumulative, and otherwise the inclusive day count
selects the span length through the thresholds 111, 201, 291 with fallback
q(end), giving the span-length quarters ending at q(end), non-cumulative,
an absent start being a one-day interval. -/
theorem C4_classifier_matches_spec (start : Option PyDate) (e : PyDate) :
    quarters_from_span start e = spec_classify start e := by
  cases start with
  | none =>
      simp only [quarters_from_span, spec_classify, KIFRS_QUARTER_LIMITS, pyRange]
      norm_num [List.find?]
  | some st =>
      simp only [quarters_from_span, spec_classify, pyRange]
      rw [findK_eval]
      split_ifs <;> simp only [Prod.mk.injEq] <;> refine ⟨?_, trivial⟩ <;> congr 1 <;> omega

/-- Python max of a nonempty integer interval is its upper endpoint. -/
theorem pyMax_Icc {a b : Int} (h : a ≤ b) : pyMax (Finset.Icc a b) = b := by
  have hne : (Finset.Icc a b).Nonempty := Finset.nonempty_Icc.mpr h
  rw [pyMax, ← Finset.coe_max' hne, WithBot.unbot'_coe]
  apply le_antisymm
  · exact Finset.max'_le _ hne _ (fun x hx => (Finset.mem_Icc.mp hx).2)
  · exact Finset.le_max' _ b (Finset.mem_Icc.mpr ⟨h, le_refl b⟩)

/-- C5 amended: for any valid end month the classifier returns a nonempty
set of quarters lying within -1..4 whose maximum is exactly the end date's
quarter q(end); it can reach below 1 when the duration heuristic's span
length exceeds q(end), so it is not always a subset of {1, 2, 3, 4}. -/
theorem C5_quarterset_shape (start : Option PyDate) (e : PyDate)
    (h1 : 1 ≤ e.month) (h2 : e.month ≤ 12) :
    (quarters_from_span start e).1.Nonempty ∧
      (quarters_from_span start e).1 ⊆ Finset.Icc (-1 : Int) 4 ∧
      pyMax (quarters_from_span start e).1 = (q_index e : Int) := by
  have hq1 : 1 ≤ q_index e := by unfold q_index; omega
  have hq4 : q_index e ≤ 4 := by unfold q_index; omega
  have hz1 : (1 : Int) ≤ (q_index e : Int) := by exact_mod_cast hq1
  have hz4 : ((q_index e : Int)) ≤ 4 := by exact_mod_cast hq4
  have hcan : ∀ lo : Int, lo ≤ (q_index e : Int) → -1 ≤ lo →
      (Finset.Icc lo ((q_index e : Int) + 1 - 1)).Nonempty ∧
        Finset.Icc lo ((q_index e : Int) + 1 - 1) ⊆ Finset.Icc (-1 : Int) 4 ∧
        pyMax (Finset.Icc lo ((q_index e : Int) + 1 - 1)) = (q_index e : Int) := by
    intro lo hlo hlo2
    have he : ((q_index e : Int) + 1 - 1) = (q_index e : Int) := by omega
    rw [he]
    exact ⟨Finset.nonempty_Icc.mpr hlo, Finset.Icc_subset_Icc hlo2 hz4, pyMax_Icc hlo⟩
  cases start with
  | none =>
      simp only [quarters_from_span, pyRange]
      rw [findK_eval]
      split_ifs <;> exact hcan _ (by omega) (by omega)
  | some st =>
      simp only [quarters_from_span, pyRange]
      split_ifs with hA
      · exact hcan _ (by omega) (by omega)
      · rw [findK_eval]
        split_ifs <;> exact hcan _ (by omega) (by omega)

/-- C5 witness: the shape property at a concrete date. -/
theorem C5_quarterset_shape_witness :
    (quarters_from_span none ⟨2024, 5, 15⟩).1.Nonempty ∧
      (quarters_from_span none ⟨2024, 5, 15⟩).1 ⊆ Finset.Icc (-1 : Int) 4 ∧
      pyMax (quarters_from_span none ⟨2024, 5, 15⟩).1 = (q_index ⟨2024, 5, 15⟩ : Int) :=
  C5_quarterset_shape none ⟨2024, 5, 15⟩ (by decide) (by decide)

/-- C9 amended: for any date taken as today, the enumerated cells are
exactly the pairs from 2015 quarter 1 through the quarter containing that
date: earlier years contribute quarters 1..4 and the current year stops at
the current (possibly still in-progress) quarter, not at the most recently
completed one. -/
theorem C9_grid_membership (t : PyDate) (hm1 : 1 ≤ t.month) (hm2 : t.month ≤ 12)
    (y qtr : Nat) :
    (y, qtr) ∈ iter_year_quarters FIRST_YEAR_SUPPORTED t ↔
      (FIRST_YEAR_SUPPORTED ≤ y ∧ y ≤ t.year ∧ 1 ≤ qtr ∧ qtr ≤ 4 ∧
        (y = t.year → qtr ≤ q_index t)) := by
  have hq4 : q_index t ≤ 4 := by unfold q_index; omega
  have hq1 : 1 ≤ q_index t := by unfold q_index; omega
  have hsame : q_index { year := t.year, month := t.month, day := 1 } = q_index t := rfl
  simp only [iter_year_quarters, FIRST_YEAR_SUPPORTED, List.mem_flatten, List.mem_map,
    List.mem_range, hsame]
  constructor
  · rintro ⟨l, ⟨y0, ⟨i, hi, rfl⟩, rfl⟩, hmem⟩
    simp only [List.mem_map, List.mem_range] at hmem
    obtain ⟨j, hj, hpair⟩ := hmem
    obtain ⟨h1, h2⟩ : 2015 + i = y ∧ j + 1 = qtr :=
      ⟨congrArg Prod.fst hpair, congrArg Prod.snd hpair⟩
    by_cases hy : 2015 + i = t.year
    · rw [if_pos hy] at hj; omega
    · rw [if_neg hy] at hj; omega
  · rintro ⟨ha, hb, hc, hd, he⟩
    obtain ⟨i, rfl⟩ : ∃ i, y = 2015 + i := ⟨y - 2015, by omega⟩
    obtain ⟨j, rfl⟩ : ∃ j, qtr = j + 1 := ⟨qtr - 1, by omega⟩
    refine ⟨_, ⟨2015 + i, ⟨i, by omega, rfl⟩, rfl⟩, ?_⟩
    simp only [List.mem_map, List.mem_range]
    refine ⟨j, ?_, rfl⟩
    by_cases hy : 2015 + i = t.year
    · rw [if_pos hy]; have := he hy; omega
    · rw [if_neg hy]; omega

/-- C9 witness: the grid characterisation instantiated on 2024-05-15. -/
theorem C9_grid_membership_witness :
    (2017, 3) ∈ iter_year_quarters FIRST_YEAR_SUPPORTED ⟨2024, 5, 15⟩ :=
  (C9_grid_membership ⟨2024, 5, 15⟩ (by decide) (by decide) 2017 3).mpr
    ⟨by decide, by decide, by decide, by decide, fun h => absurd h (by decide)⟩

theorem dateLt_trans {a b c : PyDate} (h1 : dateLt a b) (h2 : dateLt b c) : dateLt a c := by
  unfold dateLt at *; omega

theorem dateLe_of_dateLt {a b : PyDate} (h : dateLt a b) : dateLe a b := by
  unfold dateLe dateLt at *; omega

theorem mem_sortInsFV {x y : FinancialValue} {l : List FinancialValue} :
    y ∈ sortInsFV x l ↔ y = x ∨ y ∈ l := by
  induction l with
  | nil => simp [sortInsFV]
  | cons hd tl ih =>
      rw [sortInsFV]
      split_ifs
      · simp [List.mem_cons]
      · simp [List.mem_cons, ih]
        tauto

theorem pairwise_sortInsFV (x : FinancialValue) {l : List FinancialValue}
    (h : List.Pairwise (fun u v => dateLe u.report_date v.report_date) l) :
    List.Pairwise (fun u v => dateLe u.report_date v.report_date) (sortInsFV x l) := by
  induction l with
  | nil => simp [sortInsFV]
  | cons hd tl ih =>
      rw [List.pairwise_cons] at h
      obtain ⟨hhd, htl⟩ := h
      rw [sortInsFV]
      split_ifs with hlt
      · refine List.Pairwise.cons ?_ (List.Pairwise.cons hhd htl)
        intro z hz
        rcases List.mem_cons.mp hz with rfl | hz2
        · exact dateLe_of_dateLt hlt
        · intro hcon
          exact (hhd z hz2) (dateLt_trans hcon hlt)
      · refine List.Pairwise.cons ?_ (ih htl)
        intro z hz
        rcases mem_sortInsFV.mp hz with rfl | hz2
        · exact hlt
        · exact hhd z hz2

theorem pairwise_pySortFV (l : List FinancialValue) :
    List.Pairwise (fun u v => dateLe u.report_date v.report_date) (pySortFV l) := by
  suffices h : ∀ acc, List.Pairwise (fun u v => dateLe u.report_date v.report_date) acc →
      List.Pairwise (fun u v => dateLe u.report_date v.report_date)
        (l.foldl (fun acc x => sortInsFV x acc) acc) by
    exact h [] List.Pairwise.nil
  induction l with
  | nil => intro acc h; simpa using h
  | cons hd tl ih => intro acc h; exact ih _ (pairwise_sortInsFV hd h)

theorem lookupA_setAssoc {K V : Type} [DecidableEq K] (l : List (K × V)) (k : K) (v : V)
    (x : K) : lookupA (setAssoc l k v) x = if k = x then some v else lookupA l x := by
  induction l with
  | nil => simp [setAssoc, lookupA]
  | cons hd tl ih =>
      obtain ⟨k0, v0⟩ := hd
      by_cases h : k0 = k
      · subst h
        by_cases hx : k0 = x
        · subst hx
          simp [setAssoc, lookupA]
        · simp [setAssoc, lookupA, hx]
      · by_cases hx : k0 = x
        · subst hx
          have hk : ¬ k = k0 := fun hh => h hh.symm
          simp [setAssoc, h, lookupA, hk]
        · simp [setAssoc, h, lookupA, hx, ih]

theorem seriesOf_add_pairwise (r : CompanyFinancialReport) (st acct : String)
    (fv : FinancialValue)
    (h : ∀ st2 acct2, List.Pairwise (fun u v : FinancialValue =>
      dateLe u.report_date v.report_date) (seriesOf r st2 acct2)) (st2 acct2 : String) :
    List.Pairwise (fun u v : FinancialValue => dateLe u.report_date v.report_date)
      (seriesOf (add_financial_value r st acct fv) st2 acct2) := by
  unfold seriesOf add_financial_value
  simp only [lookupA_setAssoc]
  by_cases h1 : st = st2
  · rw [if_pos h1]
    simp only [Option.getD_some]
    rw [lookupA_setAssoc]
    by_cases h2 : acct = acct2
    · rw [if_pos h2]
      simp only [Option.getD_some]
      exact pairwise_pySortFV _
    · rw [if_neg h2]
      have hh := h st acct2
      unfold seriesOf at hh
      exact hh
  · rw [if_neg h1]
    have hh := h st2 acct2
    unfold seriesOf at hh
    exact hh

/-- C10: after any sequence of add-financial-value calls on a freshly
constructed report, every account's time series is sorted in non-decreasing
order of report date, whatever the insertion order was. -/
theorem C10_series_sorted (calls : List (String × String × FinancialValue))
    (st acct : String) :
    List.Pairwise (fun u v : FinancialValue => dateLe u.report_date v.report_date)
      (seriesOf (applyAdds {} calls) st acct) := by
  suffices h : ∀ r, (∀ st2 acct2, List.Pairwise (fun u v : FinancialValue =>
      dateLe u.report_date v.report_date) (seriesOf r st2 acct2)) →
      ∀ st2 acct2, List.Pairwise (fun u v : FinancialValue =>
        dateLe u.report_date v.report_date) (seriesOf (applyAdds r calls) st2 acct2) by
    refine h {} ?_ st acct
    intro st2 acct2
    simp [seriesOf, lookupA]
  induction calls with
  | nil => intro r h st2 acct2; simpa [applyAdds] using h st2 acct2
  | cons c tl ih =>
      intro r h st2 acct2
      have hstep := seriesOf_add_pairwise r c.1 c.2.1 c.2.2 h
      exact ih _ hstep st2 acct2

theorem lookupQK_cons_ne (k : QK) (v : ℚ) (t : List (QK × ℚ)) (x : QK) (h : ¬ k = x) :
    lookupQK ((k, v) :: t) x = lookupQK t x := by
  simp [lookupQK, h]

theorem lookupQK_cons_eq (k : QK) (v : ℚ) (t : List (QK × ℚ)) :
    lookupQK ((k, v) :: t) k = v := by
  simp [lookupQK]

theorem solvedHas_iff_mem {s : Solved} {q : Int} :
    solvedHas s q = true ↔ q ∈ s.map Prod.fst := by
  induction s with
  | nil => simp [solvedHas, slookup]
  | cons hd tl ih =>
      obtain ⟨k, v⟩ := hd
      by_cases h : k = q
      · subst h
        simp [solvedHas, slookup]
      · have h2 : ¬ q = k := fun hh => h hh.symm
        have he : solvedHas ((k, v) :: tl) q = solvedHas tl q := by
          simp [solvedHas, slookup, h]
        rw [he, ih, List.map_cons, List.mem_cons]
        simp [h2]

theorem sortInsQK_perm (x : QK) (l : List QK) : List.Perm (sortInsQK x l) (x :: l) := by
  induction l with
  | nil => exact List.Perm.refl _
  | cons hd tl ih =>
      rw [sortInsQK]
      split_ifs
      · exact List.Perm.refl _
      · exact (ih.cons hd).trans (List.Perm.swap x hd tl)

theorem pySortKeysQK_perm (l : List QK) : List.Perm (pySortKeysQK l) l := by
  suffices h : ∀ acc, List.Perm (l.foldl (fun acc x => sortInsQK x acc) acc) (acc ++ l) by
    simpa using h []
  induction l with
  | nil => intro acc; simp
  | cons x t ih =>
      intro acc
      have h1 := ih (sortInsQK x acc)
      have h2 : List.Perm (sortInsQK x acc ++ t) ((x :: acc) ++ t) :=
        (sortInsQK_perm x acc).append_right t
      exact (h1.trans h2).trans List.perm_middle.symm

theorem solvedVal_cons_ne (k : Int) (v : ℚ) (tl : Solved) (i : Int) (h : ¬ k = i) :
    solvedVal ((k, v) :: tl) i = solvedVal tl i := by
  simp [solvedVal, slookup, h]

theorem lookupQK_q_mapped (s : Solved) (rest : List (QK × ℚ)) (i : Int)
    (hmem : solvedHas s i = true) :
    lookupQK (s.map (fun kv => (QK.q kv.1, kv.2)) ++ rest) (QK.q i) = solvedVal s i := by
  induction s with
  | nil => simp [solvedHas, slookup] at hmem
  | cons hd tl ih =>
      obtain ⟨k, v⟩ := hd
      by_cases h : k = i
      · subst h
        simp only [List.map_cons, List.cons_append]
        rw [lookupQK_cons_eq]
        simp [solvedVal, slookup]
      · have h2 : ¬ QK.q k = QK.q i := by simp [h]
        have h3 : solvedHas tl i = true := by
          simpa [solvedHas, slookup, h] using hmem
        simp only [List.map_cons, List.cons_append]
        rw [lookupQK_cons_ne _ _ _ _ h2, ih h3, solvedVal_cons_ne _ _ _ _ h]

theorem lookupQK_all_mapped (s : Solved) (a : ℚ) :
    lookupQK (s.map (fun kv => (QK.q kv.1, kv.2)) ++ [(QK.all, a)]) QK.all = a := by
  induction s with
  | nil => simp [lookupQK]
  | cons hd tl ih =>
      simp only [List.map_cons, List.cons_append]
      rw [lookupQK_cons_ne _ _ _ _ (by simp)]
      exact ih

/-- C3 amended: whenever no explicit annual year-to-date figure is supplied
and all four quarters were solved, the emitted mapping carries entries for
quarters 1 through 4 and an "all" entry equal to their exact sum; when an
explicit annual figure is supplied it is emitted verbatim and need not
equal the quarter sum. -/
theorem C3_derived_all_eq_sum (cs : List Eq3)
    (hall : ([1, 2, 3, 4] : List Int).all (fun q => solvedHas (solveCore cs) q) = true) :
    ∃ v1 v2 v3 v4 : ℚ,
      ("1", v1) ∈ solve_year cs none ∧ ("2", v2) ∈ solve_year cs none ∧
        ("3", v3) ∈ solve_year cs none ∧ ("4", v4) ∈ solve_year cs none ∧
          ("all", v1 + v2 + v3 + v4) ∈ solve_year cs none := by
  have hs : solve_year cs none =
      ordered_qmap ((solveCore cs).map (fun kv => (QK.q kv.1, kv.2)) ++
        [(QK.all, solvedVal (solveCore cs) 1 + solvedVal (solveCore cs) 2 +
          solvedVal (solveCore cs) 3 + solvedVal (solveCore cs) 4)]) := by
    simp only [solve_year, allEntryOf]
    rw [if_pos hall]
  have hmem : ∀ i : Int, solvedHas (solveCore cs) i = true →
      (qkStr (QK.q i),
        lookupQK ((solveCore cs).map (fun kv => (QK.q kv.1, kv.2)) ++
          [(QK.all, solvedVal (solveCore cs) 1 + solvedVal (solveCore cs) 2 +
            solvedVal (solveCore cs) 3 + solvedVal (solveCore cs) 4)]) (QK.q i)) ∈
        solve_year cs none := by
    intro i hi
    rw [hs, ordered_qmap]
    refine List.mem_map_of_mem _ ?_
    rw [(pySortKeysQK_perm _).mem_iff]
    rw [List.map_append, List.map_map]
    refine List.mem_append_left _ ?_
    rw [List.mem_map]
    rw [solvedHas_iff_mem, List.mem_map] at hi
    obtain ⟨kv, hkv, hq⟩ := hi
    exact ⟨kv, hkv, by simp [hq]⟩
  simp only [List.all_cons, List.all_nil, Bool.and_eq_true, and_true] at hall
  obtain ⟨h1, h2, h3, h4⟩ := hall
  refine ⟨solvedVal (solveCore cs) 1, solvedVal (solveCore cs) 2, solvedVal (solveCore cs) 3,
    solvedVal (solveCore cs) 4, ?_, ?_, ?_, ?_, ?_⟩
  · have := hmem 1 h1
    rwa [lookupQK_q_mapped _ _ _ h1] at this
  · have := hmem 2 h2
    rwa [lookupQK_q_mapped _ _ _ h2] at this
  · have := hmem 3 h3
    rwa [lookupQK_q_mapped _ _ _ h3] at this
  · have := hmem 4 h4
    rwa [lookupQK_q_mapped _ _ _ h4] at this
  · rw [hs, ordered_qmap]
    have hmem2 : QK.all ∈ pySortKeysQK
        (((solveCore cs).map (fun kv => (QK.q kv.1, kv.2)) ++
          [(QK.all, solvedVal (solveCore cs) 1 + solvedVal (solveCore cs) 2 +
            solvedVal (solveCore cs) 3 + solvedVal (solveCore cs) 4)]).map Prod.fst) := by
      rw [(pySortKeysQK_perm _).mem_iff, List.map_append]
      exact List.mem_append_right _ (by simp)
    rw [List.mem_map]
    refine ⟨QK.all, hmem2, ?_⟩
    show (qkStr QK.all, lookupQK _ QK.all) = _
    rw [lookupQK_all_mapped]
    rfl

/-- C3 witness: the derived annual total at a concrete constraint list. -/
theorem C3_derived_all_eq_sum_witness :
    ∃ v1 v2 v3 v4 : ℚ,
      ("1", v1) ∈ solve_year [⟨{1}, 1, false⟩, ⟨{2}, 2, false⟩, ⟨{3}, 3, false⟩,
          ⟨{4}, 4, false⟩] none ∧
        ("2", v2) ∈ solve_year [⟨{1}, 1, false⟩, ⟨{2}, 2, false⟩, ⟨{3}, 3, false⟩,
          ⟨{4}, 4, false⟩] none ∧
          ("3", v3) ∈ solve_year [⟨{1}, 1, false⟩, ⟨{2}, 2, false⟩, ⟨{3}, 3, false⟩,
            ⟨{4}, 4, false⟩] none ∧
            ("4", v4) ∈ solve_year [⟨{1}, 1, false⟩, ⟨{2}, 2, false⟩, ⟨{3}, 3, false⟩,
              ⟨{4}, 4, false⟩] none ∧
              ("all", v1 + v2 + v3 + v4) ∈ solve_year [⟨{1}, 1, false⟩, ⟨{2}, 2, false⟩,
                ⟨{3}, 3, false⟩, ⟨{4}, 4, false⟩] none :=
  C3_derived_all_eq_sum [⟨{1}, 1, false⟩, ⟨{2}, 2, false⟩, ⟨{3}, 3, false⟩, ⟨{4}, 4, false⟩]
    (by with_unfolding_all decide)

theorem slookup_append (s t : Solved) (q : Int) :
    slookup (s ++ t) q = match slookup s q with
      | some v => some v
      | none => slookup t q := by
  induction s with
  | nil => simp [slookup]
  | cons hd tl ih =>
      obtain ⟨k, v⟩ := hd
      by_cases h : k = q
      · simp [slookup, h]
      · simp [slookup, h, ih]

theorem solvedHas_append (s t : Solved) (q : Int) :
    solvedHas (s ++ t) q = (solvedHas s q || solvedHas t q) := by
  unfold solvedHas
  rw [slookup_append]
  rcases hs : slookup s q with _ | v <;> simp

theorem mem_keysOf_iff {s : Solved} {q : Int} : q ∈ keysOf s ↔ solvedHas s q = true := by
  rw [keysOf, List.mem_toFinset, solvedHas_iff_mem]

theorem keysOf_append (s t : Solved) : keysOf (s ++ t) = keysOf s ∪ keysOf t := by
  unfold keysOf
  rw [List.map_append, List.toFinset_append]

theorem pyMax_singleton (a : Int) : pyMax {a} = a := by
  simp [pyMax]

theorem unknowns_eq_singleton {s : Solved} {c : Eq3} (h : (unknowns s c).card = 1) :
    unknowns s c = {theQ s c} := by
  obtain ⟨a, ha⟩ := Finset.card_eq_one.mp h
  rw [theQ, ha, pyMax_singleton]

theorem fires_card {s : Solved} {c : Eq3} (h : fires s c = true) :
    (unknowns s c).card = 1 := by
  unfold fires at h
  rw [Bool.and_eq_true] at h
  exact beq_iff_eq.mp h.1

theorem fires_gate {s : Solved} {c : Eq3} (h : fires s c = true) (hy : c.ytd = true) :
    theQ s c = pyMax c.qs := by
  unfold fires at h
  rw [Bool.and_eq_true] at h
  have h2 := h.2
  rw [hy] at h2
  simpa [theQ] using h2

theorem stepC_of_fires {p : Solved × Bool} {c : Eq3} (h : fires p.1 c = true) :
    stepC p c = (p.1 ++ [(theQ p.1 c,
      c.amt - Finset.sum (c.qs.filter (fun q => solvedHas p.1 q = true))
        (fun q => solvedVal p.1 q))], true) := by
  unfold stepC
  rw [if_pos h]

theorem stepC_of_not_fires {p : Solved × Bool} {c : Eq3} (h : fires p.1 c = false) :
    stepC p c = p := by
  unfold stepC
  rw [if_neg (by simp [h])]

theorem stepC_extends (p : Solved × Bool) (c : Eq3) :
    ∃ t, (stepC p c).1 = p.1 ++ t := by
  rcases hf : fires p.1 c with _ | _
  · exact ⟨[], by rw [stepC_of_not_fires hf]; simp⟩
  · rw [stepC_of_fires hf]
    exact ⟨_, rfl⟩

theorem foldl_stepC_extends (g : List Eq3) (p : Solved × Bool) :
    ∃ t, (g.foldl stepC p).1 = p.1 ++ t := by
  induction g generalizing p with
  | nil => exact ⟨[], by simp⟩
  | cons c cg ih =>
      rw [List.foldl_cons]
      obtain ⟨t1, ht1⟩ := stepC_extends p c
      obtain ⟨t2, ht2⟩ := ih (stepC p c)
      exact ⟨t1 ++ t2, by rw [ht2, ht1, List.append_assoc]⟩

theorem keysOf_foldl_mono (g : List Eq3) (p : Solved × Bool) :
    keysOf p.1 ⊆ keysOf ((g.foldl stepC p).1) := by
  obtain ⟨t, ht⟩ := foldl_stepC_extends g p
  rw [ht, keysOf_append]
  exact Finset.subset_union_left

theorem stepC_flag (p : Solved × Bool) (c : Eq3) :
    (stepC p c).2 = (p.2 || fires p.1 c) := by
  rcases hf : fires p.1 c with _ | _
  · rw [stepC_of_not_fires hf]; simp
  · rw [stepC_of_fires hf]; simp

theorem foldl_stepC_flag_mono (g : List Eq3) (p : Solved × Bool) (h : p.2 = true) :
    (g.foldl stepC p).2 = true := by
  induction g generalizing p with
  | nil => simpa using h
  | cons c cg ih =>
      rw [List.foldl_cons]
      exact ih _ (by rw [stepC_flag, h]; simp)

theorem theQ_not_mem_keys {s : Solved} {c : Eq3} (h : fires s c = true) :
    theQ s c ∉ keysOf s := by
  have h1 := unknowns_eq_singleton (fires_card h)
  have h2 : theQ s c ∈ unknowns s c := by rw [h1]; exact Finset.mem_singleton_self _
  rw [unknowns, Finset.mem_filter] at h2
  rw [mem_keysOf_iff, h2.2]
  simp

theorem theQ_mem_qs {s : Solved} {c : Eq3} (h : fires s c = true) :
    theQ s c ∈ c.qs := by
  have h1 := unknowns_eq_singleton (fires_card h)
  have h2 : theQ s c ∈ unknowns s c := by rw [h1]; exact Finset.mem_singleton_self _
  exact Finset.mem_of_mem_filter _ h2

theorem foldl_stepC_no_change {g : List Eq3} {s : Solved}
    (h : (g.foldl stepC (s, false)).2 = false) :
    (g.foldl stepC (s, false)).1 = s ∧ ∀ c ∈ g, fires s c = false := by
  induction g with
  | nil => exact ⟨rfl, by simp⟩
  | cons c cg ih =>
      rw [List.foldl_cons] at h ⊢
      rcases hf : fires s c with _ | _
      · rw [stepC_of_not_fires hf] at h ⊢
        obtain ⟨h1, h2⟩ := ih h
        exact ⟨h1, by
          intro c2 hc2
          rcases List.mem_cons.mp hc2 with rfl | hc3
          · exact hf
          · exact h2 c2 hc3⟩
      · exfalso
        rw [stepC_of_fires hf] at h
        rw [foldl_stepC_flag_mono _ _ rfl] at h
        exact Bool.true_eq_false.mp h

theorem foldl_stepC_changed {g : List Eq3} {s : Solved}
    (h : (g.foldl stepC (s, false)).2 = true) :
    keysOf s ⊂ keysOf ((g.foldl stepC (s, false)).1) := by
  induction g with
  | nil => simp at h
  | cons c cg ih =>
      rw [List.foldl_cons] at h ⊢
      rcases hf : fires s c with _ | _
      · rw [stepC_of_not_fires hf] at h ⊢
        exact ih h
      · rw [stepC_of_fires hf] at h ⊢
        have hm := keysOf_foldl_mono cg (s ++ [(theQ s c,
          c.amt - Finset.sum (c.qs.filter (fun q => solvedHas s q = true))
            (fun q => solvedVal s q))], true)
        simp only [keysOf_append] at hm
        constructor
        · exact fun q hq => hm (Finset.mem_union_left _ hq)
        · intro hsub
          have : theQ s c ∈ keysOf s := by
            apply hsub
            apply hm
            apply Finset.mem_union_right
            simp [keysOf]
          exact theQ_not_mem_keys hf this

theorem keysOf_foldl_subset {g : List Eq3} {R : Finset Int}
    (hg : ∀ c ∈ g, c.qs ⊆ R) (p : Solved × Bool) :
    keysOf ((g.foldl stepC p).1) ⊆ keysOf p.1 ∪ R := by
  induction g generalizing p with
  | nil => simp
  | cons c cg ih =>
      rw [List.foldl_cons]
      have hstep : keysOf ((stepC p c).1) ⊆ keysOf p.1 ∪ R := by
        rcases hf : fires p.1 c with _ | _
        · rw [stepC_of_not_fires hf]
          exact Finset.subset_union_left
        · rw [stepC_of_fires hf]
          rw [keysOf_append]
          intro q hq
          rcases Finset.mem_union.mp hq with h1 | h2
          · exact Finset.mem_union_left _ h1
          · refine Finset.mem_union_right _ (hg c (List.mem_cons_self c cg) ?_)
            have : q = theQ p.1 c := by
              simpa [keysOf] using h2
            rw [this]
            exact theQ_mem_qs hf
      refine (ih (fun c2 hc2 => hg c2 (List.mem_cons_of_mem c hc2)) (stepC p c)).trans ?_
      exact Finset.union_subset_union_left hstep |>.trans (by
        intro q hq
        rcases Finset.mem_union.mp hq with h1 | h2
        · rcases Finset.mem_union.mp h1 with h3 | h4
          · exact Finset.mem_union_left _ h3
          · exact Finset.mem_union_right _ h4
        · exact Finset.mem_union_right _ h2)

theorem mem_spanOrdered {c : Eq3} {cs : List Eq3} :
    c ∈ spanOrdered cs ↔ c ∈ cs ∧
      (c.qs.card = 4 ∨ c.qs.card = 3 ∨ c.qs.card = 2 ∨ c.qs.card = 1) := by
  simp only [spanOrdered, List.mem_append, List.mem_filter, beq_iff_eq]
  constructor
  · rintro (((⟨h1, h2⟩ | ⟨h1, h2⟩) | ⟨h1, h2⟩) | ⟨h1, h2⟩) <;> exact ⟨h1, by omega⟩
  · rintro ⟨h1, h2 | h2 | h2 | h2⟩
    · exact Or.inl (Or.inl (Or.inl ⟨h1, h2⟩))
    · exact Or.inl (Or.inl (Or.inr ⟨h1, h2⟩))
    · exact Or.inl (Or.inr ⟨h1, h2⟩)
    · exact Or.inr ⟨h1, h2⟩

theorem qs_subset_relevantQ {c : Eq3} {cs : List Eq3} (h : c ∈ cs) :
    c.qs ⊆ relevantQ cs := by
  induction cs with
  | nil => simp at h
  | cons hd tl ih =>
      rcases List.mem_cons.mp h with rfl | h2
      · rw [relevantQ, List.foldr_cons]
        exact Finset.subset_union_left
      · rw [relevantQ, List.foldr_cons]
        exact (ih h2).trans Finset.subset_union_right

theorem solveIter_fix (cs : List Eq3) :
    ∀ n : Nat, ∀ s : Solved, (relevantQ cs \ keysOf s).card < n →
      ∀ c ∈ spanOrdered cs, fires (solveIter n cs s) c = false := by
  intro n
  induction n with
  | zero => intro s hs; omega
  | succ m ih =>
      intro s hs c hc
      rw [solveIter]
      rcases hp : (passC cs s).2 with _ | _
      · simp only [hp, if_neg Bool.false_ne_true]
        obtain ⟨h1, h2⟩ := foldl_stepC_no_change (g := spanOrdered cs) (s := s) hp
        have h1b : (passC cs s).1 = s := h1
        rw [h1b]
        exact h2 c hc
      · simp only [hp, if_pos rfl]
        refine ih (passC cs s).1 ?_ c hc
        have hgrow : keysOf s ⊂ keysOf ((passC cs s).1) := foldl_stepC_changed hp
        have hsub : keysOf ((passC cs s).1) ⊆ keysOf s ∪ relevantQ cs := by
          have hg : ∀ c2 ∈ spanOrdered cs, c2.qs ⊆ relevantQ cs := fun c2 hc2 =>
            qs_subset_relevantQ (mem_spanOrdered.mp hc2).1
          have := keysOf_foldl_subset hg (s, false)
          simpa [passC] using this
        have hlt : (relevantQ cs \ keysOf ((passC cs s).1)).card <
            (relevantQ cs \ keysOf s).card := by
          apply Finset.card_lt_card
          obtain ⟨q, hq1, hq2⟩ := Finset.exists_of_ssubset hgrow
          constructor
          · intro x hx
            rw [Finset.mem_sdiff] at hx ⊢
            exact ⟨hx.1, fun hxk => hx.2 (hgrow.1 hxk)⟩
          · intro hcon
            have hqrel : q ∈ relevantQ cs := by
              rcases Finset.mem_union.mp (hsub hq1) with h1 | h2
              · exact absurd h1 hq2
              · exact h2
            have : q ∈ relevantQ cs \ keysOf ((passC cs s).1) :=
              hcon (Finset.mem_sdiff.mpr ⟨hqrel, hq2⟩)
            rw [Finset.mem_sdiff] at this
            exact this.2 hq1
        omega

theorem foldl_stepC_sound {cs g : List Eq3}
    (hg : ∀ c ∈ g, c ∈ cs ∧
      (c.qs.card = 4 ∨ c.qs.card = 3 ∨ c.qs.card = 2 ∨ c.qs.card = 1))
    (p : Solved × Bool) (hp : ∀ q ∈ keysOf p.1, Solvable cs q) :
    ∀ q ∈ keysOf ((g.foldl stepC p).1), Solvable cs q := by
  induction g generalizing p with
  | nil => simpa using hp
  | cons c cg ih =>
      rw [List.foldl_cons]
      refine ih (fun c2 hc2 => hg c2 (List.mem_cons_of_mem c hc2)) (stepC p c) ?_
      rcases hf : fires p.1 c with _ | _
      · rw [stepC_of_not_fires hf]
        exact hp
      · rw [stepC_of_fires hf]
        intro q hq
        rw [keysOf_append, Finset.mem_union] at hq
        rcases hq with h1 | h2
        · exact hp q h1
        · have hq2 : q = theQ p.1 c := by simpa [keysOf] using h2
          subst hq2
          obtain ⟨hcs, hcard⟩ := hg c (List.mem_cons_self c cg)
          refine Solvable.mk c hcs hcard _ (theQ_mem_qs hf) ?_ ?_
          · intro q2 hq2m hne
            apply hp
            rw [mem_keysOf_iff]
            have hsing := unknowns_eq_singleton (fires_card hf)
            by_contra hcon
            have : q2 ∈ unknowns p.1 c := by
              rw [unknowns, Finset.mem_filter]
              exact ⟨hq2m, by
                rcases hh : solvedHas p.1 q2 with _ | _
                · rfl
                · exact absurd hh hcon⟩
            rw [hsing, Finset.mem_singleton] at this
            exact hne this
          · intro hy
            exact fires_gate hf hy

theorem solveIter_sound {cs : List Eq3} (n : Nat) (s : Solved)
    (hs : ∀ q ∈ keysOf s, Solvable cs q) :
    ∀ q ∈ keysOf (solveIter n cs s), Solvable cs q := by
  induction n generalizing s with
  | zero => simpa [solveIter] using hs
  | succ m ih =>
      rw [solveIter]
      have hsound : ∀ q ∈ keysOf ((passC cs s).1), Solvable cs q := by
        refine foldl_stepC_sound (fun c hc => ?_) (s, false) hs
        have := mem_spanOrdered.mp hc
        exact ⟨this.1, this.2⟩
      rcases hp : (passC cs s).2 with _ | _
      · simpa [hp] using hsound
      · simp only [hp, if_pos rfl]
        exact ih _ hsound

theorem solveCore_sound {cs : List Eq3} : ∀ q ∈ keysOf (solveCore cs), Solvable cs q := by
  refine solveIter_sound _ [] ?_
  simp [keysOf]

theorem solvable_mem_fix {cs : List Eq3} {F : Solved}
    (hfix : ∀ c ∈ spanOrdered cs, fires F c = false) {q : Int}
    (h : Solvable cs q) : q ∈ keysOf F := by
  induction h with
  | mk c hc hcard q hq hrest hgate ih =>
      by_contra hqF
      have hunk : unknowns F c = {q} := by
        ext x
        rw [unknowns, Finset.mem_filter, Finset.mem_singleton]
        constructor
        · rintro ⟨hx1, hx2⟩
          by_contra hne
          have := ih x hx1 hne
          rw [mem_keysOf_iff] at this
          rw [this] at hx2
          exact Bool.true_eq_false.mp hx2
        · rintro rfl
          refine ⟨hq, ?_⟩
          rcases hh : solvedHas F x with _ | _
          · rfl
          · exact absurd (mem_keysOf_iff.mpr hh) hqF
      have hfire : fires F c = true := by
        rw [fires, hunk]
        have hcard1 : ({q} : Finset Int).card == 1 := by simp
        rw [Bool.and_eq_true]
        refine ⟨hcard1, ?_⟩
        rcases hy : c.ytd with _ | _
        · simp
        · rw [pyMax_singleton, hgate hy]
          simp
      have := hfix c (mem_spanOrdered.mpr ⟨hc, hcard⟩)
      rw [hfire] at this
      exact Bool.true_eq_false.mp this

theorem solvable_mono {cs cs2 : List Eq3} (hsub : ∀ c, c ∈ cs → c ∈ cs2) {q : Int}
    (h : Solvable cs q) : Solvable cs2 q := by
  induction h with
  | mk c hc hcard q hq hrest hgate ih =>
      exact Solvable.mk c (hsub c hc) hcard q hq (fun q2 h1 h2 => ih q2 h1 h2) hgate

theorem keysOf_solveCore_perm {cs cs2 : List Eq3} (hiff : ∀ c, c ∈ cs ↔ c ∈ cs2) :
    keysOf (solveCore cs) = keysOf (solveCore cs2) := by
  have hfix : ∀ c ∈ spanOrdered cs, fires (solveCore cs) c = false :=
    solveIter_fix cs _ [] (by simp [keysOf])
  have hfix2 : ∀ c ∈ spanOrdered cs2, fires (solveCore cs2) c = false :=
    solveIter_fix cs2 _ [] (by simp [keysOf])
  ext q
  constructor
  · intro hq
    exact solvable_mem_fix hfix2 (solvable_mono (fun c hc => (hiff c).mp hc)
      (solveCore_sound q hq))
  · intro hq
    exact solvable_mem_fix hfix (solvable_mono (fun c hc => (hiff c).mpr hc)
      (solveCore_sound q hq))

theorem foldl_stepC_nodup (g : List Eq3) (p : Solved × Bool)
    (hp : (p.1.map Prod.fst).Nodup) : (((g.foldl stepC p).1).map Prod.fst).Nodup := by
  induction g generalizing p with
  | nil => simpa using hp
  | cons c cg ih =>
      rw [List.foldl_cons]
      refine ih (stepC p c) ?_
      rcases hf : fires p.1 c with _ | _
      · rw [stepC_of_not_fires hf]
        exact hp
      · rw [stepC_of_fires hf]
        rw [List.map_append, List.nodup_append]
        refine ⟨hp, by simp, ?_⟩
        intro x hx
        have hq := theQ_not_mem_keys hf
        rw [keysOf, List.mem_toFinset] at hq
        simp only [List.map_cons, List.map_nil, List.mem_singleton]
        intro hcon
        rw [hcon] at hx
        exact hq hx

theorem solveIter_keys_nodup (cs : List Eq3) (n : Nat) (s : Solved)
    (hs : (s.map Prod.fst).Nodup) : ((solveIter n cs s).map Prod.fst).Nodup := by
  induction n generalizing s with
  | zero => simpa [solveIter] using hs
  | succ m ih =>
      rw [solveIter]
      have hn : (((passC cs s).1).map Prod.fst).Nodup := foldl_stepC_nodup _ (s, false) hs
      rcases hp : (passC cs s).2 with _ | _
      · simpa [hp] using hn
      · simp only [hp, if_pos rfl]
        exact ih _ hn

theorem solveCore_keys_nodup (cs : List Eq3) : ((solveCore cs).map Prod.fst).Nodup :=
  solveIter_keys_nodup cs _ [] (by simp)

theorem keyLt_asymm {a b : Bool × Int} (h : keyLt a b = true) : keyLt b a = false := by
  obtain ⟨a1, a2⟩ := a
  obtain ⟨b1, b2⟩ := b
  cases a1 <;> cases b1 <;> simp [keyLt] at * <;> omega

theorem keyLt_strict_trans {a b c : Bool × Int} (h1 : keyLt a b = true)
    (h2 : keyLt b c = true) : keyLt a c = true := by
  obtain ⟨a1, a2⟩ := a
  obtain ⟨b1, b2⟩ := b
  obtain ⟨c1, c2⟩ := c
  cases a1 <;> cases b1 <;> cases c1 <;> simp [keyLt] at * <;> omega

theorem keyLt_total_eq {a b : Bool × Int} (h1 : keyLt a b = false)
    (h2 : keyLt b a = false) : a = b := by
  obtain ⟨a1, a2⟩ := a
  obtain ⟨b1, b2⟩ := b
  cases a1 <;> cases b1 <;> simp [keyLt] at * <;> omega

theorem mem_sortInsQK {x y : QK} {l : List QK} :
    y ∈ sortInsQK x l ↔ y = x ∨ y ∈ l := by
  induction l with
  | nil => simp [sortInsQK]
  | cons hd tl ih =>
      rw [sortInsQK]
      split_ifs
      · simp [List.mem_cons]
      · simp [List.mem_cons, ih]
        tauto

theorem pairwise_sortInsQK (x : QK) {l : List QK}
    (h : List.Pairwise (fun u v => keyLt (qkKey v) (qkKey u) = false) l) :
    List.Pairwise (fun u v => keyLt (qkKey v) (qkKey u) = false) (sortInsQK x l) := by
  induction l with
  | nil => simp [sortInsQK]
  | cons hd tl ih =>
      rw [List.pairwise_cons] at h
      obtain ⟨hhd, htl⟩ := h
      rw [sortInsQK]
      split_ifs with hlt
      · refine List.Pairwise.cons ?_ (List.Pairwise.cons hhd htl)
        intro z hz
        rcases List.mem_cons.mp hz with rfl | hz2
        · exact keyLt_asymm hlt
        · rcases hzx : keyLt (qkKey z) (qkKey x) with _ | _
          · rfl
          · exact absurd (keyLt_strict_trans hzx hlt) (by rw [hhd z hz2]; simp)
      · refine List.Pairwise.cons ?_ (ih htl)
        intro z hz
        rcases mem_sortInsQK.mp hz with rfl | hz2
        · simpa using hlt
        · exact hhd z hz2

theorem pairwise_pySortKeysQK (l : List QK) :
    List.Pairwise (fun u v => keyLt (qkKey v) (qkKey u) = false) (pySortKeysQK l) := by
  suffices h : ∀ acc, List.Pairwise (fun u v => keyLt (qkKey v) (qkKey u) = false) acc →
      List.Pairwise (fun u v => keyLt (qkKey v) (qkKey u) = false)
        (l.foldl (fun acc x => sortInsQK x acc) acc) by
    exact h [] List.Pairwise.nil
  induction l with
  | nil => intro acc h; simpa using h
  | cons hd tl ih => intro acc h; exact ih _ (pairwise_sortInsQK hd h)

theorem sorted_strict_perm_eq :
    ∀ l1 l2 : List QK, List.Perm l1 l2 →
      List.Pairwise (fun u v => keyLt (qkKey u) (qkKey v) = true) l1 →
      List.Pairwise (fun u v => keyLt (qkKey u) (qkKey v) = true) l2 → l1 = l2 := by
  intro l1
  induction l1 with
  | nil =>
      intro l2 hperm _ _
      exact (hperm.symm.eq_nil).symm
  | cons a t1 ih =>
      intro l2 hperm hp1 hp2
      cases l2 with
      | nil => exact absurd hperm.eq_nil (by simp)
      | cons b t2 =>
          rw [List.pairwise_cons] at hp1 hp2
          by_cases hab : a = b
          · subst hab
            rw [ih t2 (hperm.cons_inv) hp1.2 hp2.2]
          · exfalso
            have ha2 : a ∈ b :: t2 := hperm.mem_iff.mp (List.mem_cons_self a t1)
            have ha3 : a ∈ t2 := by
              rcases List.mem_cons.mp ha2 with h1 | h2
              · exact absurd h1 hab
              · exact h2
            have hb1 : b ∈ a :: t1 := hperm.symm.mem_iff.mp (List.mem_cons_self b t2)
            have hb3 : b ∈ t1 := by
              rcases List.mem_cons.mp hb1 with h1 | h2
              · exact absurd h1.symm hab
              · exact h2
            have l1lt : keyLt (qkKey a) (qkKey b) = true := hp1.1 b hb3
            have l2lt : keyLt (qkKey b) (qkKey a) = true := hp2.1 a ha3
            rw [keyLt_asymm l1lt] at l2lt
            exact Bool.false_ne_true l2lt

theorem pairwise_le_to_lt {l : List QK}
    (hle : List.Pairwise (fun u v => keyLt (qkKey v) (qkKey u) = false) l)
    (hnd : l.Nodup)
    (hkd : ∀ x ∈ l, ∀ y ∈ l, x ≠ y → qkKey x ≠ qkKey y) :
    List.Pairwise (fun u v => keyLt (qkKey u) (qkKey v) = true) l := by
  induction l with
  | nil => exact List.Pairwise.nil
  | cons a t ih =>
      rw [List.pairwise_cons] at hle ⊢
      rw [List.nodup_cons] at hnd
      refine ⟨?_, ih hle.2 hnd.2 (fun x hx y hy hxy =>
        hkd x (List.mem_cons_of_mem a hx) y (List.mem_cons_of_mem a hy) hxy)⟩
      intro z hz
      have h1 : keyLt (qkKey z) (qkKey a) = false := hle.1 z hz
      have hne : a ≠ z := fun hc => hnd.1 (hc ▸ hz)
      have hkne : qkKey a ≠ qkKey z :=
        hkd a (List.mem_cons_self a t) z (List.mem_cons_of_mem a hz) hne
      rcases h2 : keyLt (qkKey a) (qkKey z) with _ | _
      · exact absurd (keyLt_total_eq h2 h1) hkne
      · rfl

theorem pySortKeysQK_eq_of_perm {l1 l2 : List QK} (hperm : List.Perm l1 l2)
    (hnd : l1.Nodup)
    (hkd : ∀ x ∈ l1, ∀ y ∈ l1, x ≠ y → qkKey x ≠ qkKey y) :
    pySortKeysQK l1 = pySortKeysQK l2 := by
  have p1 := pySortKeysQK_perm l1
  have p2 := pySortKeysQK_perm l2
  have hp : List.Perm (pySortKeysQK l1) (pySortKeysQK l2) :=
    p1.trans (hperm.trans p2.symm)
  have hnd2 : l2.Nodup := hperm.nodup_iff.mp hnd
  have hkd2 : ∀ x ∈ l2, ∀ y ∈ l2, x ≠ y → qkKey x ≠ qkKey y := fun x hx y hy hxy =>
    hkd x (hperm.mem_iff.mpr hx) y (hperm.mem_iff.mpr hy) hxy
  refine sorted_strict_perm_eq _ _ hp ?_ ?_
  · refine pairwise_le_to_lt (pairwise_pySortKeysQK l1) (p1.nodup_iff.mpr hnd) ?_
    exact fun x hx y hy hxy =>
      hkd x (p1.mem_iff.mp hx) y (p1.mem_iff.mp hy) hxy
  · refine pairwise_le_to_lt (pairwise_pySortKeysQK l2) (p2.nodup_iff.mpr hnd2) ?_
    exact fun x hx y hy hxy =>
      hkd2 x (p2.mem_iff.mp hx) y (p2.mem_iff.mp hy) hxy

theorem relevantQ_subset {cs : List Eq3} {S : Finset Int}
    (h : ∀ c ∈ cs, c.qs ⊆ S) : relevantQ cs ⊆ S := by
  induction cs with
  | nil => simp [relevantQ]
  | cons hd tl ih =>
      rw [relevantQ, List.foldr_cons]
      refine Finset.union_subset (h hd (List.mem_cons_self hd tl)) ?_
      exact ih (fun c hc => h c (List.mem_cons_of_mem hd hc))

theorem keysOf_solveIter_subset (cs : List Eq3) (n : Nat) (s : Solved) :
    keysOf (solveIter n cs s) ⊆ keysOf s ∪ relevantQ cs := by
  induction n generalizing s with
  | zero =>
      rw [solveIter]
      exact Finset.subset_union_left
  | succ m ih =>
      rw [solveIter]
      have hg : ∀ c ∈ spanOrdered cs, c.qs ⊆ relevantQ cs := fun c hc =>
        qs_subset_relevantQ (mem_spanOrdered.mp hc).1
      have hpass : keysOf ((passC cs s).1) ⊆ keysOf s ∪ relevantQ cs :=
        keysOf_foldl_subset hg (s, false)
      rcases hp : (passC cs s).2 with _ | _
      · simpa [hp] using hpass
      · simp only [hp, if_pos rfl]
        refine (ih _).trans ?_
        refine Finset.union_subset (hpass.trans ?_) ?_
        · exact subset_rfl
        · exact Finset.subset_union_right

theorem keysOf_solveCore_subset {cs : List Eq3} {S : Finset Int}
    (h : ∀ c ∈ cs, c.qs ⊆ S) : keysOf (solveCore cs) ⊆ S := by
  refine (keysOf_solveIter_subset cs _ []).trans ?_
  rw [show keysOf [] = (∅ : Finset Int) from by simp [keysOf]]
  rw [Finset.empty_union]
  exact relevantQ_subset h

theorem ordered_qmap_fst (e : List (QK × ℚ)) :
    (ordered_qmap e).map Prod.fst = (pySortKeysQK (e.map Prod.fst)).map qkStr := by
  rw [ordered_qmap, List.map_map]
  rfl

/-- C2 amended: permuting the constraint list of an account-year yields a
SolvedYear with the same solved quarter keys in the same order (and the
same presence of "all"); the values can differ when two constraints
disagree, so only the key structure is order independent. -/
theorem C2_perm_key_order (cs cs2 : List Eq3) (a : Option ℚ) (hp : List.Perm cs cs2)
    (hq : ∀ c ∈ cs, c.qs ⊆ ({1, 2, 3, 4} : Finset Int)) :
    (solve_year cs a).map Prod.fst = (solve_year cs2 a).map Prod.fst := by
  have hiff : ∀ c, c ∈ cs ↔ c ∈ cs2 := fun c => hp.mem_iff
  have hkeys := keysOf_solveCore_perm hiff
  have hnd1 := solveCore_keys_nodup cs
  have hnd2 := solveCore_keys_nodup cs2
  have hq2 : ∀ c ∈ cs2, c.qs ⊆ ({1, 2, 3, 4} : Finset Int) := fun c hc =>
    hq c ((hiff c).mpr hc)
  have hsub1 : keysOf (solveCore cs) ⊆ ({1, 2, 3, 4} : Finset Int) :=
    keysOf_solveCore_subset hq
  have hperm0 : List.Perm ((solveCore cs).map Prod.fst) ((solveCore cs2).map Prod.fst) :=
    List.perm_of_nodup_nodup_toFinset_eq hnd1 hnd2 hkeys
  have hhas : ∀ q : Int, solvedHas (solveCore cs) q = solvedHas (solveCore cs2) q := by
    intro q
    have hiffq : q ∈ keysOf (solveCore cs) ↔ q ∈ keysOf (solveCore cs2) := by rw [hkeys]
    rw [mem_keysOf_iff, mem_keysOf_iff] at hiffq
    rcases h1 : solvedHas (solveCore cs) q with _ | _ <;>
      rcases h2 : solvedHas (solveCore cs2) q with _ | _
    · rfl
    · exact absurd (hiffq.mpr h2) (by rw [h1]; simp)
    · exact absurd (hiffq.mp h1) (by rw [h2]; simp)
    · rfl
  have hX : (allEntryOf (solveCore cs) a).map Prod.fst =
      (allEntryOf (solveCore cs2) a).map Prod.fst := by
    rcases a with _ | x
    · simp only [allEntryOf]
      have hcond : (([1, 2, 3, 4] : List Int).all fun q => solvedHas (solveCore cs) q) =
          (([1, 2, 3, 4] : List Int).all fun q => solvedHas (solveCore cs2) q) := by
        have : (fun q : Int => solvedHas (solveCore cs) q) =
            (fun q : Int => solvedHas (solveCore cs2) q) := funext hhas
        rw [this]
      rw [hcond]
      rcases hb : (([1, 2, 3, 4] : List Int).all fun q => solvedHas (solveCore cs2) q)
        with _ | _
      · simp
      · simp
    · rfl
  have hinj : Function.Injective QK.q := fun a1 a2 h => by injection h
  have hmemA : ∀ l : List Eq3, keysOf (solveCore l) ⊆ ({1, 2, 3, 4} : Finset Int) →
      ∀ x ∈ (((solveCore l).map (fun kv => (QK.q kv.1, kv.2)) ++
        allEntryOf (solveCore l) a).map Prod.fst),
      x = QK.all ∨ ∃ n : Int, 0 ≤ n ∧ x = QK.q n := by
    intro l hsub x hx
    rw [List.map_append, List.mem_append] at hx
    rcases hx with h1 | h2
    · right
      rw [List.map_map] at h1
      obtain ⟨kv, hkv, rfl⟩ := List.mem_map.mp h1
      refine ⟨kv.1, ?_, rfl⟩
      have : kv.1 ∈ keysOf (solveCore l) := by
        rw [keysOf, List.mem_toFinset]
        exact List.mem_map_of_mem Prod.fst hkv
      have := hsub this
      simp only [Finset.mem_insert, Finset.mem_singleton] at this
      omega
    · left
      rcases a with _ | xv
      · simp only [allEntryOf] at h2
        rcases hb : (([1, 2, 3, 4] : List Int).all fun q => solvedHas (solveCore l) q)
          with _ | _
        · rw [hb] at h2; simp at h2
        · rw [hb] at h2; simpa using h2
      · simpa [allEntryOf] using h2
  have hkdgen : ∀ l : List Eq3, keysOf (solveCore l) ⊆ ({1, 2, 3, 4} : Finset Int) →
      ∀ x ∈ (((solveCore l).map (fun kv => (QK.q kv.1, kv.2)) ++
          allEntryOf (solveCore l) a).map Prod.fst),
        ∀ y ∈ (((solveCore l).map (fun kv => (QK.q kv.1, kv.2)) ++
          allEntryOf (solveCore l) a).map Prod.fst),
        x ≠ y → qkKey x ≠ qkKey y := by
    intro l hsub x hx y hy hxy
    rcases hmemA l hsub x hx with rfl | ⟨n, hn, rfl⟩ <;>
      rcases hmemA l hsub y hy with rfl | ⟨m, hm, rfl⟩
    · exact absurd rfl hxy
    · simp [qkKey]
    · simp [qkKey]
    · have hnm : n ≠ m := fun h => hxy (by rw [h])
      simp only [qkKey, if_pos hn, if_pos hm]
      intro hcon
      rw [Prod.mk.injEq] at hcon
      exact hnm hcon.2
  have hndKL : ∀ l : List Eq3, ((solveCore l).map Prod.fst).Nodup →
      ((((solveCore l).map (fun kv => (QK.q kv.1, kv.2)) ++
        allEntryOf (solveCore l) a).map Prod.fst)).Nodup := by
    intro l hnd
    rw [List.map_append, List.nodup_append]
    refine ⟨?_, ?_, ?_⟩
    · rw [List.map_map]
      have := hnd.map hinj
      rw [List.map_map] at this
      exact this
    · rcases a with _ | xv
      · simp only [allEntryOf]
        rcases hb : (([1, 2, 3, 4] : List Int).all fun q => solvedHas (solveCore l) q)
          with _ | _ <;> simp [hb]
      · simp [allEntryOf]
    · intro x hx1 hx2
      rw [List.map_map] at hx1
      obtain ⟨kv, hkv, rfl⟩ := List.mem_map.mp hx1
      rcases a with _ | xv
      · simp only [allEntryOf] at hx2
        rcases hb : (([1, 2, 3, 4] : List Int).all fun q => solvedHas (solveCore l) q)
          with _ | _
        · rw [hb] at hx2; simp at hx2
        · rw [hb] at hx2; simp at hx2
      · simp [allEntryOf] at hx2
  have hKLperm : List.Perm
      (((solveCore cs).map (fun kv => (QK.q kv.1, kv.2)) ++
        allEntryOf (solveCore cs) a).map Prod.fst)
      (((solveCore cs2).map (fun kv => (QK.q kv.1, kv.2)) ++
        allEntryOf (solveCore cs2) a).map Prod.fst) := by
    rw [List.map_append, List.map_append]
    refine List.Perm.append ?_ ?_
    · rw [List.map_map, List.map_map]
      have h0 := hperm0.map QK.q
      rw [List.map_map, List.map_map] at h0
      exact h0
    · rw [hX]
  simp only [solve_year]
  rw [ordered_qmap_fst, ordered_qmap_fst]
  rw [pySortKeysQK_eq_of_perm hKLperm (hndKL cs hnd1) (hkdgen cs hsub1)]

/-- C2 witness: key order invariance on a concrete permuted pair. -/
theorem C2_perm_key_order_witness :
    (solve_year [Eq3.mk {1} 20 false, Eq3.mk {1, 2} 50 true] none).map Prod.fst =
      (solve_year [Eq3.mk {1, 2} 50 true, Eq3.mk {1} 20 false] none).map Prod.fst :=
  C2_perm_key_order _ _ none (by with_unfolding_all decide)
    (by
      intro c hc
      rcases List.mem_cons.mp hc with rfl | hc2
      · with_unfolding_all decide
      · rcases List.mem_cons.mp hc2 with rfl | hc3
        · with_unfolding_all decide
        · simp at hc3)
